import Mathlib

/-!  Verification of the Einstein-summation engine (einsum.h).

The source file einsum.h orchestrates an external multi-dimensional array
collaborator (array.h): dimension descriptors, views, coordinate iteration and
flat-offset addressing come from that collaborator and are modelled here from
the specification; everything else (reduction, reconcile_dim, gather of
dimensions, the reduction shape, the accumulation loop of einsum_impl, the
result-shape inference of make_einsum) is translated from the source.

Element type is fixed to Int (the C++ code is generic in the element type T;
the summation uses only addition and multiplication).  A failing C assert in
reconcile_dim aborts the call before the accumulation loop runs; this is
modelled by Option: a call returns none exactly when an assert would fire,
and in that case no storage has been produced or mutated.  -/

namespace EinsumModel

/-- Modelled from the spec: the dimension descriptor of the array collaborator
(class dim of array.h, absent from src), the triple of lower bound, extent and
stride, where stride may be zero for a broadcast axis. -/
structure Dim where
  min : Int
  extent : Int
  stride : Int
deriving DecidableEq, Repr

/-- Modelled from the spec: the coordinate-range containment predicate of the
array collaborator (dim::is_in_range of array.h, absent from src): every
coordinate of the range of c lies in the valid range of d. -/
def Dim.isInRange (d c : Dim) : Prop :=
  d.min ≤ c.min ∧ c.min + c.extent ≤ d.min + d.extent

instance (d c : Dim) : Decidable (d.isInRange c) := by
  unfold Dim.isInRange; infer_instance

/-- Flat storage of an array, addressed by flat offset from the base pointer. -/
abbrev Store := Int → Int

/-- Modelled from the spec: the coordinate-to-offset mapping of the array
collaborator (shape::operator() of array.h, absent from src): the sum over all
axes of (coordinate - lower bound) * stride. -/
def offsetOf (dims : List Dim) (i : List Int) : Int :=
  (List.zipWith (fun d x => (x - d.min) * d.stride) dims i).sum

/-- Modelled from the spec: an array view of the array collaborator: a shape
(one dimension descriptor per axis) over flat storage. -/
structure View where
  dims : List Dim
  data : Store

/-- Modelled from the spec: element access of a view by coordinate tuple. -/
def View.read (v : View) (i : List Int) : Int := v.data (offsetOf v.dims i)

/-- An einsum operand: the einsum_op tuple of an accessor (called with the
coordinates selected by the labels), the dims of its shape (empty for
non-array operands, as ein_shape returns the empty shape there), and the
index sequence of axis labels. -/
structure EinOp where
  acc : List Int → Int
  dims : List Dim
  labels : List Nat

/-- The ein binder applied to an array view (ein with indices Is). -/
def arrayOp (dims : List Dim) (data : Store) (labels : List Nat) : EinOp :=
  ⟨fun i => data (offsetOf dims i), dims, labels⟩

/-- The ein binder applied to a scalar: a rank-0 array view, no labels. -/
def scalarOp (s : Int) : EinOp := arrayOp [] (fun _ => s) []

/-- The ein binder applied to a callable: no shape, at least one label. -/
def funOp (f : List Int → Int) (labels : List Nat) : EinOp := ⟨f, [], labels⟩

/-- Translation of reduction: make a dimension a reduction dimension by
giving it stride 0 (broadcast_dim keeping min and extent). -/
def reduction (d : Dim) : Dim := ⟨d.min, d.extent, 0⟩

/-- Translation of reductions: make all dimensions reduction dimensions. -/
def reductions (ds : List Dim) : List Dim := ds.map reduction

/-- Translation of reconcile_dim.  The nonempty case keeps the first
dimension and checks the two asserts of the source: first, either some
contributor has nonzero stride or all contributors equal the first; second,
every other contributor range contains the range of the first.  The empty
case is the skipped-label dummy dim of stride 0.  A failed assert aborts the
call: modelled as none. -/
def reconcile_dim : List Dim → Option Dim
  | [] => some ⟨0, 1, 0⟩
  | d0 :: ds =>
    if d0.stride ≠ 0 ∨ (∃ d ∈ ds, d.stride ≠ 0) ∨ (∀ d ∈ ds, d = d0) then
      if ∀ d ∈ ds, d.isInRange d0 then some d0 else none
    else none

/-- Translation of index_of: position of the first occurrence of x, or the
length of the list when x does not occur. -/
def index_of (x : Nat) : List Nat → Nat
  | [] => 0
  | y :: ys => if y = x then 0 else index_of x ys + 1

/-- One contributor to gathering: its label sequence and its dims. -/
abbrev Contrib := List Nat × List Dim

/-- Translation of gather_dim: the dimension a contributor provides for loop
dimension l, as a zero-or-one element list (get_tuple of index_of). -/
def gather_dim (l : Nat) (labels : List Nat) (dims : List Dim) : List Dim :=
  match dims.get? (index_of l labels) with
  | some d => [d]
  | none => []

/-- All dimensions gathered for loop dimension l, in contributor order. -/
def gathered (cs : List Contrib) (l : Nat) : List Dim :=
  cs.flatMap fun c => gather_dim l c.1 c.2

/-- Translation of gather_dims: reconcile all contributed dims for l. -/
def gather_dims (cs : List Contrib) (l : Nat) : Option Dim :=
  reconcile_dim (gathered cs l)

/-- Translation of make_shape(gather_dims<Is>(...)...) over a label list. -/
def shapeFor (cs : List Contrib) : List Nat → Option (List Dim)
  | [] => some []
  | l :: ls =>
    match gather_dims cs l, shapeFor cs ls with
    | some d, some ds => some (d :: ds)
    | _, _ => none

/-- Translation of max over an index sequence (variadic_max), 0 when empty. -/
def labelMax (ls : List Nat) : Nat := ls.foldr max 0

/-- Maximum label over a list of operands. -/
def opsMax (ops : List EinOp) : Nat := (ops.map fun o => labelMax o.labels).foldr max 0

/-- Translation of LoopRank: one more than the maximum axis label referenced
by the result or any operand. -/
def loopRank (rlabels : List Nat) (op0 : EinOp) (ops : List EinOp) : Nat :=
  1 + max (labelMax rlabels) (opsMax (op0 :: ops))

/-- The contributor list of einsum_impl: the result first with its dims as
they are, then every operand with its dims made reduction (stride 0) dims. -/
def contribsOf (rdims : List Dim) (rlabels : List Nat) (op0 : EinOp) (ops : List EinOp) :
    List Contrib :=
  (rlabels, rdims) :: (op0 :: ops).map fun o => (o.labels, reductions o.dims)

/-- Translation of make_reduction_shape inside einsum_impl: gather and
reconcile one dimension per loop index 0 .. LoopRank - 1. -/
def make_reduction_shape (rdims : List Dim) (rlabels : List Nat) (op0 : EinOp)
    (ops : List EinOp) : Option (List Dim) :=
  shapeFor (contribsOf rdims rlabels op0 ops) (List.range (loopRank rlabels op0 ops))

/-- Modelled from the spec: the coordinates of one dimension, min up to
min + extent - 1, visited by the iteration primitive of the collaborator. -/
def dimRange (d : Dim) : List Int :=
  (List.range d.extent.toNat).map fun j : Nat => d.min + (j : Int)

/-- Modelled from the spec: all coordinates of a shape, as visited by the
iteration primitive for_each_index of the array collaborator. -/
def allIndices : List Dim → List (List Int)
  | [] => [[]]
  | d :: ds => (dimRange d).flatMap fun x => (allIndices ds).map fun i => x :: i

/-- Translation of ein_at: call the operand accessor with the coordinates of
the summation index selected by the label sequence. -/
def ein_at (op : EinOp) (i : List Int) : Int :=
  op.acc (op.labels.map fun l => i.getD l 0)

/-- Product of all operand values at one summation coordinate. -/
def prodOps (op0 : EinOp) : List EinOp → List Int → Int
  | [], i => ein_at op0 i
  | o :: os, i => ein_at op0 i * prodOps o os i

/-- Translation of einsum_impl: build the reduction shape (none on a failed
reconcile assert, before any write), then visit every coordinate and add the
full operand product into the result cell addressed through the reduction
shape offsets.  Returns the updated result storage. -/
def einsum_impl (result : View) (rlabels : List Nat) (op0 : EinOp) (ops : List EinOp) :
    Option Store :=
  match make_reduction_shape result.dims rlabels op0 ops with
  | none => none
  | some sh =>
    some ((allIndices sh).foldl
      (fun st i => Function.update st (offsetOf sh i) (st (offsetOf sh i) + prodOps op0 ops i))
      result.data)

/-- Translation of the public einsum entry point: operands first, result
(with its label sequence) last; forwards to einsum_impl. -/
def einsum (op0 : EinOp) (ops : List EinOp) (result : View) (rlabels : List Nat) :
    Option Store :=
  einsum_impl result rlabels op0 ops

/-- Translation of without_stride: keep min and extent, drop the stride (a
placeholder 0, resolved later by make_compact). -/
def without_stride (d : Dim) : Dim := ⟨d.min, d.extent, 0⟩

/-- Translation of infer_result_shape: for each requested result label, the
reconciled contributed dim without its stride. -/
def infer_result_shape (cs : List Contrib) : List Nat → Option (List Dim)
  | [] => some []
  | l :: ls =>
    match gather_dims cs l, infer_result_shape cs ls with
    | some d, some ds => some (without_stride d :: ds)
    | _, _ => none

/-- Helper for make_compact: assign the running compact stride. -/
def compactFrom (s : Int) : List Dim → List Dim
  | [] => []
  | d :: ds => ⟨d.min, d.extent, s⟩ :: compactFrom (s * d.extent) ds

/-- Modelled from the spec: make_compact of the array collaborator (absent
from src) gives a freshly allocated result its own packed contiguous layout:
dimension 0 innermost with stride 1, each next stride the product of the
previous extents. -/
def make_compact (ds : List Dim) : List Dim := compactFrom 1 ds

/-- The contributor list of make_einsum_shape: only the operands, with their
dims as they are (no reduction applied on this path). -/
def opContribs (op0 : EinOp) (ops : List EinOp) : List Contrib :=
  (op0 :: ops).map fun o => (o.labels, o.dims)

/-- Translation of make_einsum_shape: infer the result dims from the operands
and make the shape compact. -/
def make_einsum_shape (rlabels : List Nat) (op0 : EinOp) (ops : List EinOp) :
    Option (List Dim) :=
  (infer_result_shape (opContribs op0 ops) rlabels).map make_compact

/-- Translation of make_einsum_impl / make_einsum: infer the result shape,
allocate a result with every element the initial value T(0), run einsum_impl
on it, return the populated result (its shape and storage). -/
def make_einsum (rlabels : List Nat) (op0 : EinOp) (ops : List EinOp) :
    Option (List Dim × Store) :=
  match make_einsum_shape rlabels op0 ops with
  | none => none
  | some sh =>
    match einsum_impl ⟨sh, fun _ => 0⟩ rlabels op0 ops with
    | none => none
    | some g => some (sh, g)

/-- A shape addresses distinct cells at distinct coordinate tuples. -/
def OffsetInj (ds : List Dim) : Prop :=
  ∀ c1 ∈ allIndices ds, ∀ c2 ∈ allIndices ds, offsetOf ds c1 = offsetOf ds c2 → c1 = c2

instance (ds : List Dim) : Decidable (OffsetInj ds) := by
  unfold OffsetInj; infer_instance

end EinsumModel

namespace EinsumModel

/-- Membership in the coordinate range of one dimension. -/
theorem mem_dimRange {d : Dim} {x : Int} :
    x ∈ dimRange d ↔ d.min ≤ x ∧ x < d.min + d.extent := by
  unfold dimRange
  rw [List.mem_map]
  constructor
  · rintro ⟨j, hj, rfl⟩
    rw [List.mem_range] at hj
    omega
  · rintro ⟨h1, h2⟩
    refine ⟨(x - d.min).toNat, ?_, ?_⟩
    · rw [List.mem_range]; omega
    · omega

/-- The coordinates of one dimension are pairwise distinct. -/
theorem nodup_dimRange (d : Dim) : (dimRange d).Nodup := by
  refine List.Nodup.map (fun a b hab => ?_) (List.nodup_range _)
  simp only at hab
  omega

/-- Membership in the coordinate list of a shape is coordinatewise range
membership. -/
theorem mem_allIndices : ∀ {ds : List Dim} {i : List Int},
    i ∈ allIndices ds ↔ List.Forall₂ (fun x d => x ∈ dimRange d) i ds := by
  intro ds
  induction ds with
  | nil =>
    intro i
    simp [allIndices, List.forall₂_nil_right_iff]
  | cons d ds ih =>
    intro i
    simp only [allIndices, List.mem_flatMap, List.mem_map]
    constructor
    · rintro ⟨x, hx, j, hj, rfl⟩
      exact List.forall₂_cons.2 ⟨hx, ih.1 hj⟩
    · intro h
      cases i with
      | nil => exact absurd h (by simp)
      | cons x j =>
        rcases List.forall₂_cons.1 h with ⟨hx, hj⟩
        exact ⟨x, hx, j, ih.2 hj, rfl⟩

/-- A coordinate list of a shape has the length of the shape. -/
theorem length_of_mem_allIndices {ds : List Dim} {i : List Int}
    (h : i ∈ allIndices ds) : i.length = ds.length :=
  (mem_allIndices.1 h).length_eq

/-- The coordinate lists of a shape are pairwise distinct. -/
theorem nodup_allIndices : ∀ ds : List Dim, (allIndices ds).Nodup := by
  intro ds
  induction ds with
  | nil => simp [allIndices]
  | cons d ds ih =>
    unfold allIndices
    refine List.nodup_flatMap.2 ⟨?_, ?_⟩
    · intro x _
      exact List.Nodup.map (fun a b hab => by injection hab) ih
    · refine List.Pairwise.imp ?_ (nodup_dimRange d)
      intro a b hab
      intro i hia hib
      rcases List.mem_map.1 hia with ⟨j1, _, rfl⟩
      rcases List.mem_map.1 hib with ⟨j2, _, he⟩
      injection he with h1 h2
      exact hab h1.symm

/-- Sum of a function over a flat map, as an iterated sum. -/
theorem sum_map_flatMap {α β : Type} (L : List α) (g : α → List β) (f : β → Int) :
    ((L.flatMap g).map f).sum = (L.map fun a => ((g a).map f).sum).sum := by
  induction L with
  | nil => simp
  | cons a L ih => simp [List.flatMap_cons, ih]

/-- The update-and-add fold of einsum_impl, characterized cellwise: the final
value of a cell is its initial value plus the sum of the contributions of the
coordinates addressing that cell. -/
theorem accum_foldl (L : List (List Int)) (off : List Int → Int) (f : List Int → Int) :
    ∀ (st : Store) (o : Int),
      (L.foldl (fun st i => Function.update st (off i) (st (off i) + f i)) st) o
        = st o + ((L.filter fun i => off i = o).map f).sum := by
  induction L with
  | nil => intro st o; simp
  | cons i L ih =>
    intro st o
    rw [List.foldl_cons, ih]
    by_cases h : off i = o
    · subst h
      simp [Function.update, List.filter_cons]
      ring
    · have h2 : (Function.update st (off i) (st (off i) + f i)) o = st o := by
        simp [Function.update]
        intro he
        exact absurd he.symm h
      rw [h2]
      have h3 : (List.filter (fun i => decide (off i = o)) (i :: L))
          = List.filter (fun i => decide (off i = o)) L := by
        simp [List.filter_cons, h]
      rw [h3]

/-- The coordinates of an appended shape are the appended coordinates. -/
theorem allIndices_append : ∀ (ds es : List Dim),
    allIndices (ds ++ es)
      = (allIndices ds).flatMap fun a => (allIndices es).map fun b => a ++ b := by
  intro ds es
  induction ds with
  | nil => simp [allIndices]
  | cons d ds ih =>
    show ((dimRange d).flatMap fun x => (allIndices (ds ++ es)).map fun i => x :: i) = _
    rw [ih]
    show _ = ((dimRange d).flatMap fun x =>
      (allIndices ds).map fun i => x :: i).flatMap fun a =>
        (allIndices es).map fun b => a ++ b
    rw [List.flatMap_assoc]
    congr 1
    funext x
    rw [List.map_flatMap, List.flatMap_map]
    congr 1
    funext a
    rw [List.map_map]
    rfl

/-- Offsets add across an append of shapes and coordinates. -/
theorem offsetOf_append {ds es : List Dim} {a b : List Int}
    (h : a.length = ds.length) :
    offsetOf (ds ++ es) (a ++ b) = offsetOf ds a + offsetOf es b := by
  unfold offsetOf
  rw [List.zipWith_append _ _ _ _ _ h.symm, List.sum_append]

/-- A shape all of whose strides are zero addresses only offset zero. -/
theorem offsetOf_zero : ∀ (es : List Dim) (b : List Int),
    (∀ d ∈ es, d.stride = 0) → offsetOf es b = 0 := by
  intro es
  induction es with
  | nil => intro b _; simp [offsetOf]
  | cons d ds ih =>
    intro b h
    cases b with
    | nil => simp [offsetOf]
    | cons x xs =>
      have hd : d.stride = 0 := h d (List.mem_cons_self d ds)
      have := ih xs (fun e he => h e (List.mem_cons_of_mem d he))
      simp only [offsetOf, List.zipWith_cons_cons, List.sum_cons] at *
      rw [hd, this]
      ring

end EinsumModel

namespace EinsumModel

/-- Unfolding equation of reconcile on a nonempty gather. -/
theorem reconcile_dim_cons (d0 : Dim) (ds : List Dim) :
    reconcile_dim (d0 :: ds)
      = if d0.stride ≠ 0 ∨ (∃ d ∈ ds, d.stride ≠ 0) ∨ (∀ d ∈ ds, d = d0) then
          if ∀ d ∈ ds, d.isInRange d0 then some d0 else none
        else none := rfl

/-- A successful reconcile of a nonempty gather returns its first element. -/
theorem reconcile_dim_some_cons {d0 : Dim} {ds : List Dim} {d : Dim}
    (h : reconcile_dim (d0 :: ds) = some d) : d = d0 := by
  rw [reconcile_dim_cons] at h
  split at h
  · split at h
    · exact (Option.some.inj h).symm
    · exact absurd h (by simp)
  · exact absurd h (by simp)

/-- Explicit success condition of reconcile on a nonempty gather. -/
theorem reconcile_dim_cons_eq_some {d0 : Dim} {ds : List Dim} :
    reconcile_dim (d0 :: ds) = some d0
      ↔ (d0.stride ≠ 0 ∨ (∃ d ∈ ds, d.stride ≠ 0) ∨ (∀ d ∈ ds, d = d0))
        ∧ (∀ d ∈ ds, d.isInRange d0) := by
  rw [reconcile_dim_cons]
  constructor
  · intro h
    split at h
    · split at h
      · exact ⟨by assumption, by assumption⟩
      · exact absurd h (by simp)
    · exact absurd h (by simp)
  · rintro ⟨h1, h2⟩
    rw [if_pos h1, if_pos h2]

/-- A shape built over a label list has one dimension per label. -/
theorem shapeFor_length {cs : List Contrib} : ∀ {ls : List Nat} {sh : List Dim},
    shapeFor cs ls = some sh → sh.length = ls.length := by
  intro ls
  induction ls with
  | nil => intro sh h; simp [shapeFor] at h; simp [← h]
  | cons l ls ih =>
    intro sh h
    unfold shapeFor at h
    cases hg : gather_dims cs l with
    | none => rw [hg] at h; simp at h
    | some d =>
      cases hrest : shapeFor cs ls with
      | none => rw [hg, hrest] at h; simp at h
      | some ds =>
        rw [hg, hrest] at h
        simp only [Option.some.injEq] at h
        rw [← h]
        simp [ih hrest]

/-- Positionwise content of a shape built over a label list. -/
theorem shapeFor_get? {cs : List Contrib} : ∀ {ls : List Nat} {sh : List Dim},
    shapeFor cs ls = some sh → ∀ {q : Nat} {l : Nat},
      ls.get? q = some l → sh.get? q = gather_dims cs l := by
  intro ls
  induction ls with
  | nil => intro sh h q l hq; simp at hq
  | cons l0 ls ih =>
    intro sh h q l hq
    unfold shapeFor at h
    cases hg : gather_dims cs l0 with
    | none => rw [hg] at h; simp at h
    | some d =>
      cases hrest : shapeFor cs ls with
      | none => rw [hg, hrest] at h; simp at h
      | some ds =>
        rw [hg, hrest] at h
        simp only [Option.some.injEq] at h
        subst h
        cases q with
        | zero =>
          simp only [List.get?_cons_zero, Option.some.injEq] at hq
          subst hq
          simp [hg]
        | succ q => exact ih hrest (by simpa using hq)

/-- A failing gather for a listed label fails the whole shape. -/
theorem shapeFor_none {cs : List Contrib} {l : Nat}
    (hl : gather_dims cs l = none) : ∀ {ls : List Nat}, l ∈ ls → shapeFor cs ls = none := by
  intro ls
  induction ls with
  | nil => intro h; simp at h
  | cons l0 ls ih =>
    intro h
    unfold shapeFor
    rcases List.mem_cons.1 h with rfl | hmem
    · rw [hl]
    · rw [ih hmem]
      cases gather_dims cs l0 <;> rfl

/-- The position of a label below r in the range list 0 .. r - 1 is itself. -/
theorem index_of_map_succ (x : Nat) : ∀ ys : List Nat,
    index_of (x + 1) (ys.map Nat.succ) = index_of x ys := by
  intro ys
  induction ys with
  | nil => rfl
  | cons y ys ih =>
    simp only [List.map_cons, index_of]
    by_cases h : y = x
    · simp [h]
    · have h2 : ¬(Nat.succ y = x + 1) := by omega
      simp [h, h2, ih]

/-- The label 0 does not occur in a list of successors. -/
theorem index_of_zero_map_succ : ∀ ys : List Nat,
    index_of 0 (ys.map Nat.succ) = ys.length := by
  intro ys
  induction ys with
  | nil => rfl
  | cons y ys ih => simp [index_of, ih]

/-- Unfolding equation of index_of on a nonempty list. -/
theorem index_of_cons (x y : Nat) (ys : List Nat) :
    index_of x (y :: ys) = if y = x then 0 else index_of x ys + 1 := rfl

/-- Position of l in the range list when l is in range. -/
theorem index_of_range : ∀ {r l : Nat}, l < r → index_of l (List.range r) = l := by
  intro r
  induction r with
  | zero => intro l h; omega
  | succ r ih =>
    intro l h
    rw [List.range_succ_eq_map]
    cases l with
    | zero => simp [index_of_cons]
    | succ l =>
      have hlt : l < r := by omega
      rw [index_of_cons, if_neg (by omega), index_of_map_succ, ih hlt]

/-- Position of l in the range list when l is out of range: the full length. -/
theorem index_of_range_ge : ∀ {r l : Nat}, r ≤ l → index_of l (List.range r) = r := by
  intro r
  induction r with
  | zero => intro l h; rfl
  | succ r ih =>
    intro l h
    rw [List.range_succ_eq_map]
    cases l with
    | zero => omega
    | succ l =>
      have hle : r ≤ l := by omega
      rw [index_of_cons, if_neg (by omega), index_of_map_succ, ih hle]

/-- A gather over reduction dims is the reduction of the plain gather. -/
theorem gather_dim_reductions (l : Nat) (labels : List Nat) (dims : List Dim) :
    gather_dim l labels (reductions dims) = (gather_dim l labels dims).map reduction := by
  unfold gather_dim reductions
  rw [List.get?_map]
  cases dims.get? (index_of l labels) <;> simp

/-- Every dim gathered from an operand contribution has stride 0. -/
theorem stride_of_mem_gather_reductions {l : Nat} {labels : List Nat} {dims : List Dim}
    {d : Dim} (h : d ∈ gather_dim l labels (reductions dims)) : d.stride = 0 := by
  rw [gather_dim_reductions] at h
  rcases List.mem_map.1 h with ⟨e, _, rfl⟩
  rfl

/-- The gather of the einsum contributor list, result part in front. -/
theorem gathered_contribsOf (rdims : List Dim) (rlabels : List Nat) (op0 : EinOp)
    (ops : List EinOp) (l : Nat) :
    gathered (contribsOf rdims rlabels op0 ops) l
      = gather_dim l rlabels rdims
        ++ (op0 :: ops).flatMap fun o => gather_dim l o.labels (reductions o.dims) := by
  unfold gathered contribsOf
  rw [List.flatMap_cons, List.flatMap_map]

/-- Every label of a list is at most the label maximum. -/
theorem le_labelMax {l : Nat} : ∀ {ls : List Nat}, l ∈ ls → l ≤ labelMax ls := by
  intro ls
  induction ls with
  | nil => intro h; simp at h
  | cons x ls ih =>
    intro h
    rcases List.mem_cons.1 h with rfl | hmem
    · simp [labelMax, List.foldr_cons]
    · have := ih hmem
      simp only [labelMax, List.foldr_cons]
      exact le_trans this (le_max_right _ _)

/-- The label maximum of a member operand is at most the operand maximum. -/
theorem labelMax_le_opsMax {op : EinOp} : ∀ {ops : List EinOp}, op ∈ ops →
    labelMax op.labels ≤ opsMax ops := by
  intro ops
  induction ops with
  | nil => intro h; simp at h
  | cons o os ih =>
    intro h
    rcases List.mem_cons.1 h with rfl | hmem
    · simp [opsMax]
    · have := ih hmem
      simp only [opsMax, List.map_cons, List.foldr_cons]
      exact le_trans this (le_max_right _ _)

/-- A label declared by the result is below the loop rank. -/
theorem lt_loopRank_of_mem_rlabels {l : Nat} {rlabels : List Nat} {op0 : EinOp}
    {ops : List EinOp} (h : l ∈ rlabels) : l < loopRank rlabels op0 ops := by
  have := le_labelMax h
  unfold loopRank
  have h2 : labelMax rlabels ≤ max (labelMax rlabels) (opsMax (op0 :: ops)) :=
    le_max_left _ _
  omega

/-- A label declared by an operand is below the loop rank. -/
theorem lt_loopRank_of_mem_op {l : Nat} {rlabels : List Nat} {op0 : EinOp}
    {ops : List EinOp} {op : EinOp} (hop : op ∈ op0 :: ops) (h : l ∈ op.labels) :
    l < loopRank rlabels op0 ops := by
  have h1 := le_labelMax h
  have h2 := labelMax_le_opsMax hop
  unfold loopRank
  have h3 : opsMax (op0 :: ops) ≤ max (labelMax rlabels) (opsMax (op0 :: ops)) :=
    le_max_right _ _
  omega

end EinsumModel

namespace EinsumModel

/-- Gather of the identity-labeled result for a declared label. -/
theorem gather_dim_range_lt {r m : Nat} {rdims : List Dim} {d : Dim}
    (hm : m < r) (hd : rdims.get? m = some d) :
    gather_dim m (List.range r) rdims = [d] := by
  unfold gather_dim
  rw [index_of_range hm, hd]

/-- Gather of the identity-labeled result for an undeclared label. -/
theorem gather_dim_range_ge {r m : Nat} {rdims : List Dim}
    (hm : r ≤ m) (hlen : rdims.length ≤ r) :
    gather_dim m (List.range r) rdims = [] := by
  unfold gather_dim
  rw [index_of_range_ge hm, List.get?_eq_none.2 hlen]

/-- The loop rank with an identity-labeled result covers all result axes. -/
theorem le_loopRank_range (r : Nat) (op0 : EinOp) (ops : List EinOp) :
    r ≤ loopRank (List.range r) op0 ops := by
  cases r with
  | zero => omega
  | succ r0 =>
    have h1 : r0 ∈ List.range (r0 + 1) := List.mem_range.2 (by omega)
    have h2 := le_labelMax h1
    unfold loopRank
    have h3 : labelMax (List.range (r0 + 1))
        ≤ max (labelMax (List.range (r0 + 1))) (opsMax (op0 :: ops)) := le_max_left _ _
    omega

/-- The length of a successful reduction shape is the loop rank. -/
theorem mrs_length {rdims : List Dim} {rlabels : List Nat} {op0 : EinOp}
    {ops : List EinOp} {sh : List Dim}
    (hsh : make_reduction_shape rdims rlabels op0 ops = some sh) :
    sh.length = loopRank rlabels op0 ops := by
  have := shapeFor_length hsh
  simpa using this

/-- A successful reduction shape starts with the identity-labeled result
dims: the result is the first contributor, so its dims are canonical. -/
theorem mrs_take {rdims : List Dim} {r : Nat} {op0 : EinOp} {ops : List EinOp}
    {sh : List Dim} (hlen : rdims.length = r)
    (hsh : make_reduction_shape rdims (List.range r) op0 ops = some sh) :
    sh.take r = rdims := by
  have hshlen : sh.length = loopRank (List.range r) op0 ops := mrs_length hsh
  have hrk := le_loopRank_range r op0 ops
  apply List.ext_get?
  intro n
  by_cases hn : n < r
  · rw [List.get?_take hn]
    have hnlt : n < loopRank (List.range r) op0 ops := by omega
    have hrange := List.get?_range hnlt
    have hgd := shapeFor_get? hsh hrange
    have hnd : n < rdims.length := by omega
    have hd := List.get?_eq_get hnd
    have hgath : gathered (contribsOf rdims (List.range r) op0 ops) n
        = rdims.get ⟨n, hnd⟩
          :: ((op0 :: ops).flatMap fun o => gather_dim n o.labels (reductions o.dims)) := by
      rw [gathered_contribsOf, gather_dim_range_lt hn hd]
      rfl
    have hns : n < sh.length := by omega
    have he := List.get?_eq_get hns
    have hrec : gather_dims (contribsOf rdims (List.range r) op0 ops) n
        = some (sh.get ⟨n, hns⟩) := by rw [← hgd, he]
    unfold gather_dims at hrec
    rw [hgath] at hrec
    rw [he, hd, reconcile_dim_some_cons hrec]
  · rw [List.get?_eq_none.2 (by rw [List.length_take]; omega),
      List.get?_eq_none.2 (by omega)]

/-- Every axis of the reduction shape past the identity-labeled result rank
is a stride-0 reduction axis. -/
theorem mrs_drop_stride {rdims : List Dim} {r : Nat} {op0 : EinOp} {ops : List EinOp}
    {sh : List Dim} (hlen : rdims.length = r)
    (hsh : make_reduction_shape rdims (List.range r) op0 ops = some sh) :
    ∀ d ∈ sh.drop r, d.stride = 0 := by
  intro d hd
  rcases List.mem_iff_get?.1 hd with ⟨q, hq⟩
  rw [List.get?_drop] at hq
  have hshlen : sh.length = loopRank (List.range r) op0 ops := mrs_length hsh
  have hlt : r + q < loopRank (List.range r) op0 ops := by
    have := (List.get?_eq_some.1 hq).1
    omega
  have hgd := shapeFor_get? hsh (List.get?_range hlt)
  rw [hq] at hgd
  have hres : gather_dim (r + q) (List.range r) rdims = [] :=
    gather_dim_range_ge (by omega) (by omega)
  unfold gather_dims at hgd
  rw [gathered_contribsOf, hres, List.nil_append] at hgd
  have hstr : ∀ e ∈ (op0 :: ops).flatMap fun o =>
      gather_dim (r + q) o.labels (reductions o.dims), e.stride = 0 := by
    intro e he
    rcases List.mem_flatMap.1 he with ⟨o, _, hin⟩
    exact stride_of_mem_gather_reductions hin
  cases hL : (op0 :: ops).flatMap fun o =>
      gather_dim (r + q) o.labels (reductions o.dims) with
  | nil =>
    rw [hL] at hgd
    have hsome : some d = some (⟨0, 1, 0⟩ : Dim) := hgd.trans rfl
    rw [Option.some.inj hsome]
  | cons e es =>
    rw [hL] at hgd
    have hde : d = e := reconcile_dim_some_cons hgd.symm
    rw [hde]
    exact hstr e (by rw [hL]; exact List.mem_cons_self e es)

/-- A sum of guarded terms over a duplicate-free list with a unique match. -/
theorem sum_ite_single {α : Type} (P : α → Prop) [DecidablePred P] (F : α → Int)
    (c : α) : ∀ L : List α, L.Nodup → c ∈ L → (∀ a ∈ L, P a ↔ a = c) →
      (L.map fun a => if P a then F a else 0).sum = F c := by
  intro L
  induction L with
  | nil => intro _ hc _; simp at hc
  | cons a L ih =>
    intro hnd hc hP
    have hndL : L.Nodup := (List.nodup_cons.1 hnd).2
    have haL : a ∉ L := (List.nodup_cons.1 hnd).1
    by_cases hae : a = c
    · subst hae
      have hPa : P a := (hP a (List.mem_cons_self a L)).2 rfl
      have hrest : (L.map fun x => if P x then F x else 0).sum = 0 := by
        apply List.sum_eq_zero
        intro x hx
        rcases List.mem_map.1 hx with ⟨y, hy, rfl⟩
        have hny : ¬ P y := by
          intro hPy
          have hya : y = a := (hP y (List.mem_cons_of_mem a hy)).1 hPy
          exact haL (hya ▸ hy)
        simp [hny]
      rw [List.map_cons, List.sum_cons, if_pos hPa, hrest, add_zero]
    · have hcL : c ∈ L := by
        rcases List.mem_cons.1 hc with h1 | h2
        · exact absurd h1.symm hae
        · exact h2
      have hPa : ¬ P a := fun hPa2 => hae ((hP a (List.mem_cons_self a L)).1 hPa2)
      have hrec := ih hndL hcL (fun x hx => hP x (List.mem_cons_of_mem a hx))
      rw [List.map_cons, List.sum_cons, if_neg hPa, hrec, zero_add]

end EinsumModel

namespace EinsumModel

/-- The accumulation fold of einsum_impl with a fixed shape, cellwise. -/
theorem accum_foldl_sh (sh : List Dim) (op0 : EinOp) (ops : List EinOp)
    (L : List (List Int)) (st : Store) (o : Int) :
    (L.foldl (fun st i =>
        Function.update st (offsetOf sh i) (st (offsetOf sh i) + prodOps op0 ops i)) st) o
      = st o + ((L.filter fun i => offsetOf sh i = o).map (prodOps op0 ops)).sum :=
  accum_foldl L (fun i => offsetOf sh i) (fun i => prodOps op0 ops i) st o

/-- Cellwise value of einsum with an identity-labeled result over an
injectively addressed result shape: the initial cell value plus the sum, over
the coordinates of the reduction axes, of the full operand product at the
result coordinate extended by those reduction coordinates. -/
theorem einsum_cell {rdims : List Dim} {r : Nat} {op0 : EinOp} {ops : List EinOp}
    {init : Store} {sh : List Dim} {g : Store}
    (hlen : rdims.length = r)
    (hsh : make_reduction_shape rdims (List.range r) op0 ops = some sh)
    (hg : einsum_impl ⟨rdims, init⟩ (List.range r) op0 ops = some g)
    (hinj : OffsetInj rdims)
    {c : List Int} (hc : c ∈ allIndices rdims) :
    g (offsetOf rdims c)
      = init (offsetOf rdims c)
        + ((allIndices (sh.drop r)).map fun b => prodOps op0 ops (c ++ b)).sum := by
  have hg2 : g = (allIndices sh).foldl
      (fun st i =>
        Function.update st (offsetOf sh i) (st (offsetOf sh i) + prodOps op0 ops i))
      init := by
    unfold einsum_impl at hg
    rw [hsh] at hg
    exact (Option.some.inj hg).symm
  have hTs0 := mrs_drop_stride hlen hsh
  have htk := mrs_take hlen hsh
  rw [hg2, accum_foldl_sh]
  congr 1
  generalize hT : sh.drop r = T
  rw [hT] at hTs0
  have hsplit : sh = rdims ++ T := by
    rw [← hT, ← htk]
    exact (List.take_append_drop r sh).symm
  rw [hsplit, allIndices_append, List.filter_flatMap, sum_map_flatMap]
  have hterm : ∀ a ∈ allIndices rdims,
      ((List.filter (fun i => decide (offsetOf (rdims ++ T) i = offsetOf rdims c))
          ((allIndices T).map fun b => a ++ b)).map (prodOps op0 ops)).sum
        = if offsetOf rdims a = offsetOf rdims c
            then ((allIndices T).map fun b => prodOps op0 ops (a ++ b)).sum else 0 := by
    intro a ha
    rw [List.filter_map]
    have hoff : ∀ b : List Int, offsetOf (rdims ++ T) (a ++ b) = offsetOf rdims a := by
      intro b
      rw [offsetOf_append (length_of_mem_allIndices ha), offsetOf_zero T b hTs0, add_zero]
    by_cases he : offsetOf rdims a = offsetOf rdims c
    · rw [if_pos he]
      have hfe : List.filter
          ((fun i => decide (offsetOf (rdims ++ T) i = offsetOf rdims c))
            ∘ fun b => a ++ b) (allIndices T) = allIndices T := by
        apply List.filter_eq_self.2
        intro b _
        simp only [Function.comp, hoff, decide_eq_true_eq]
        exact he
      rw [hfe, List.map_map]
      rfl
    · rw [if_neg he]
      have hfe : List.filter
          ((fun i => decide (offsetOf (rdims ++ T) i = offsetOf rdims c))
            ∘ fun b => a ++ b) (allIndices T) = [] := by
        apply List.filter_eq_nil_iff.2
        intro b _
        simp only [Function.comp, hoff, decide_eq_true_eq]
        exact he
      rw [hfe]
      rfl
  rw [List.map_congr_left hterm]
  exact sum_ite_single (fun a => offsetOf rdims a = offsetOf rdims c)
    (fun a => ((allIndices T).map fun b => prodOps op0 ops (a ++ b)).sum) c
    (allIndices rdims) (nodup_allIndices rdims) hc
    (fun a ha => ⟨fun hoe => hinj a ha c hc hoe, fun hac => by rw [hac]⟩)

end EinsumModel

namespace EinsumModel

/-- The position of an absent label is the whole length. -/
theorem index_of_of_not_mem {x : Nat} : ∀ {ys : List Nat}, x ∉ ys →
    index_of x ys = ys.length := by
  intro ys
  induction ys with
  | nil => intro _; rfl
  | cons y ys ih =>
    intro h
    have h1 : y ≠ x := fun he => h (he ▸ List.mem_cons_self y ys)
    rw [index_of_cons, if_neg h1, ih (fun hm => h (List.mem_cons_of_mem y hm))]
    rfl

/-- An operand whose label count matches its rank declares the label of any
dim it contributes. -/
theorem mem_of_get_index_of {l : Nat} {labels : List Nat} {dims : List Dim} {d : Dim}
    (hwf : labels.length = dims.length)
    (h : dims.get? (index_of l labels) = some d) : l ∈ labels := by
  by_contra hnm
  rw [index_of_of_not_mem hnm, hwf, List.get?_eq_none.2 (le_refl _)] at h
  exact Option.noConfusion h

/-- Reconcile rejects when all contributed dims are broadcast (stride 0) and
two of them have different extents. -/
theorem reconcile_none_of_allzero_ne {L : List Dim}
    (hz : ∀ d ∈ L, d.stride = 0) {e1 e2 : Dim}
    (h1 : e1 ∈ L) (h2 : e2 ∈ L) (hne : e1.extent ≠ e2.extent) :
    reconcile_dim L = none := by
  cases L with
  | nil => simp at h1
  | cons d0 ds =>
    rw [reconcile_dim_cons, if_neg]
    intro hcond
    rcases hcond with hs | hs | hall
    · exact hs (hz d0 (List.mem_cons_self d0 ds))
    · rcases hs with ⟨d, hd, hds⟩
      exact hds (hz d (List.mem_cons_of_mem d0 hd))
    · have he1 : e1 = d0 := by
        rcases List.mem_cons.1 h1 with h | h
        · exact h
        · exact hall e1 h
      have he2 : e2 = d0 := by
        rcases List.mem_cons.1 h2 with h | h
        · exact h
        · exact hall e2 h
      exact hne (by rw [he1, he2])

/-- A failing gather for a label below the loop rank fails the whole call. -/
theorem einsum_none_of_gather_none {rdims : List Dim} {rlabels : List Nat}
    {op0 : EinOp} {ops : List EinOp} {init : Store} {l : Nat}
    (h : gather_dims (contribsOf rdims rlabels op0 ops) l = none)
    (hl : l < loopRank rlabels op0 ops) :
    einsum op0 ops ⟨rdims, init⟩ rlabels = none := by
  have hshape : make_reduction_shape rdims rlabels op0 ops = none :=
    shapeFor_none h (List.mem_range.2 hl)
  unfold einsum einsum_impl
  rw [hshape]

/-- An operand gather through reduced dims, explicitly. -/
theorem gather_dim_reductions_some {l : Nat} {labels : List Nat} {dims : List Dim}
    {d : Dim} (h : dims.get? (index_of l labels) = some d) :
    gather_dim l labels (reductions dims) = [reduction d] := by
  rw [gather_dim_reductions]
  unfold gather_dim
  rw [h]
  rfl

/-- A member operand contributes its reduced dim to the gathered list. -/
theorem reduction_mem_gathered {rdims : List Dim} {rlabels : List Nat}
    {op0 : EinOp} {ops : List EinOp} {l : Nat} {op : EinOp} {d : Dim}
    (hop : op ∈ op0 :: ops)
    (hd : op.dims.get? (index_of l op.labels) = some d) :
    reduction d ∈ gathered (contribsOf rdims rlabels op0 ops) l := by
  rw [gathered_contribsOf]
  refine List.mem_append_right _ ?_
  refine List.mem_flatMap.2 ⟨op, hop, ?_⟩
  rw [gather_dim_reductions_some hd]
  exact List.mem_singleton.2 rfl

end EinsumModel

namespace EinsumModel

/-- C2, counterexample.  The claim says every pair of operands declaring the
same axis label with non-broadcast (nonzero-stride) dims of different extents
makes the call fail.  Here the two operands declare label 0 with stride-1
dims of extents 3 and 5, yet the call succeeds, because the result also
declares label 0 (its stride-1 dim is canonical) and both operand ranges
contain the canonical range: the first reconcile assert is satisfied by the
nonzero canonical stride and the second only checks containment. -/
theorem C2_counterexample :
    ((arrayOp [⟨0, 3, 1⟩] (fun o => o) [0]).dims.get? (index_of 0 [0]) = some ⟨0, 3, 1⟩)
      ∧ ((arrayOp [⟨0, 5, 1⟩] (fun o => o) [0]).dims.get? (index_of 0 [0]) = some ⟨0, 5, 1⟩)
      ∧ (3 : Int) ≠ 5 ∧ (1 : Int) ≠ 0
      ∧ (einsum (arrayOp [⟨0, 3, 1⟩] (fun o => o) [0])
          [arrayOp [⟨0, 5, 1⟩] (fun o => o) [0]]
          ⟨[⟨0, 2, 1⟩], fun _ => 0⟩ [0]).isSome = true := by
  exact ⟨rfl, rfl, by decide, by decide, rfl⟩

/-- C2, amended: for every pair of operands declaring the same axis label
with non-broadcast (nonzero-stride) dims of different extents, the call fails
before any element of the result storage is modified, provided the result
does not declare that label (so the axis is a pure reduction axis and every
gathered dim is a stride-0 reduction dim, making the equality assert of
reconcile_dim binding).  Failure is returning none, produced while building
the reduction shape, before the accumulation loop writes anything. -/
theorem C2_amended {rdims : List Dim} {rlabels : List Nat} {op0 : EinOp}
    {ops : List EinOp} {init : Store} {l : Nat} {opA opB : EinOp} {dA dB : Dim}
    (hlen : rdims.length ≤ rlabels.length)
    (hnl : l ∉ rlabels)
    (hA : opA ∈ op0 :: ops) (hB : opB ∈ op0 :: ops)
    (hwfA : opA.labels.length = opA.dims.length)
    (hdA : opA.dims.get? (index_of l opA.labels) = some dA) (hsA : dA.stride ≠ 0)
    (hdB : opB.dims.get? (index_of l opB.labels) = some dB) (hsB : dB.stride ≠ 0)
    (hext : dA.extent ≠ dB.extent) :
    einsum op0 ops ⟨rdims, init⟩ rlabels = none := by
  have hlA : l ∈ opA.labels := mem_of_get_index_of hwfA hdA
  have hlr : l < loopRank rlabels op0 ops := lt_loopRank_of_mem_op hA hlA
  refine einsum_none_of_gather_none ?_ hlr
  unfold gather_dims
  have hres : gather_dim l rlabels rdims = [] := by
    unfold gather_dim
    rw [index_of_of_not_mem hnl, List.get?_eq_none.2 hlen]
  have hz : ∀ d ∈ gathered (contribsOf rdims rlabels op0 ops) l, d.stride = 0 := by
    intro d hd
    rw [gathered_contribsOf, hres, List.nil_append] at hd
    rcases List.mem_flatMap.1 hd with ⟨o, _, hin⟩
    exact stride_of_mem_gather_reductions hin
  exact reconcile_none_of_allzero_ne hz
    (reduction_mem_gathered hA hdA) (reduction_mem_gathered hB hdB) hext

/-- Witness for C2_amended: a scalar result with operands of extents 3 and 5
on label 0 makes the call fail. -/
theorem C2_amended_witness :
    einsum (arrayOp [⟨0, 3, 1⟩] (fun o => o) [0])
      [arrayOp [⟨0, 5, 1⟩] (fun o => o) [0]]
      ⟨[], fun _ => 0⟩ [] = none := by
  exact @C2_amended [] [] (arrayOp [⟨0, 3, 1⟩] (fun o => o) [0])
    [arrayOp [⟨0, 5, 1⟩] (fun o => o) [0]] (fun _ => 0) 0
    (arrayOp [⟨0, 3, 1⟩] (fun o => o) [0]) (arrayOp [⟨0, 5, 1⟩] (fun o => o) [0])
    ⟨0, 3, 1⟩ ⟨0, 5, 1⟩ (by decide) (by decide)
    (List.mem_cons_self _ _)
    (List.mem_cons_of_mem _ (List.mem_cons_self _ _))
    rfl rfl (by decide) rfl (by decide) (by decide)

/-- C6: for an operand contributing a broadcast dim for an axis, the call is
rejected while reconciling that axis, before the evaluation loop, whenever
the canonical coordinate range does not lie within the contributed range;
and under the in-range condition that rejection cannot fire: with a
nonzero-stride canonical dim, the gathered broadcast dims are accepted
regardless of their bounds provided each contains the canonical range. -/
theorem C6_broadcast_range {rdims : List Dim} {rlabels : List Nat} {op0 : EinOp}
    {ops : List EinOp} {init : Store} {l : Nat} {d0 : Dim} {L : List Dim}
    (hg : gathered (contribsOf rdims rlabels op0 ops) l = d0 :: L)
    (hlr : l < loopRank rlabels op0 ops) :
    ((∃ d ∈ L, ¬ d.isInRange d0) → einsum op0 ops ⟨rdims, init⟩ rlabels = none)
      ∧ (d0.stride ≠ 0 → (∀ d ∈ L, d.isInRange d0) →
          gather_dims (contribsOf rdims rlabels op0 ops) l = some d0) := by
  constructor
  · rintro ⟨d, hd, hnr⟩
    refine einsum_none_of_gather_none ?_ hlr
    unfold gather_dims
    rw [hg, reconcile_dim_cons]
    have hnall : ¬ ∀ e ∈ L, e.isInRange d0 := fun hall => hnr (hall d hd)
    by_cases h1 : (d0.stride ≠ 0 ∨ (∃ d ∈ L, d.stride ≠ 0) ∨ (∀ d ∈ L, d = d0))
    · rw [if_pos h1, if_neg hnall]
    · rw [if_neg h1]
  · intro hs hall
    unfold gather_dims
    rw [hg]
    exact reconcile_dim_cons_eq_some.2 ⟨Or.inl hs, hall⟩

/-- Witness for C6_broadcast_range: rejection of an out-of-range broadcast
operand (extent-1 dim at min 1 cannot replay the canonical range 0..2), and
acceptance of an in-range broadcast dim of different bounds under a
nonzero-stride canonical dim. -/
theorem C6_witness :
    (einsum (arrayOp [⟨0, 3, 1⟩] (fun o => o) [0])
        [arrayOp [⟨1, 1, 1⟩] (fun o => o) [0]] ⟨[], fun _ => 0⟩ [] = none)
      ∧ gather_dims (contribsOf [⟨0, 2, 1⟩] [0]
          (arrayOp [⟨0, 5, 1⟩] (fun o => o) [0]) []) 0 = some ⟨0, 2, 1⟩ := by
  constructor
  · exact (@C6_broadcast_range [] [] (arrayOp [⟨0, 3, 1⟩] (fun o => o) [0])
        [arrayOp [⟨1, 1, 1⟩] (fun o => o) [0]] (fun _ => 0) 0
        ⟨0, 3, 0⟩ [⟨1, 1, 0⟩] rfl (by decide)).1
      ⟨⟨1, 1, 0⟩, List.mem_singleton.2 rfl, by decide⟩
  · exact (@C6_broadcast_range [⟨0, 2, 1⟩] [0]
        (arrayOp [⟨0, 5, 1⟩] (fun o => o) [0]) [] (fun _ => 0) 0
        ⟨0, 2, 1⟩ [⟨0, 5, 0⟩] rfl (by decide)).2 (by decide) (by decide)

end EinsumModel

namespace EinsumModel

/-- A position below the length locates a member label. -/
theorem mem_of_index_of_lt {x : Nat} {ys : List Nat}
    (h : index_of x ys < ys.length) : x ∈ ys := by
  by_contra hn
  rw [index_of_of_not_mem hn] at h
  omega

/-- A successful shape holds the head of the gathered list at each axis. -/
theorem mrs_get_head {rdims : List Dim} {rlabels : List Nat} {op0 : EinOp}
    {ops : List EinOp} {sh : List Dim} {l : Nat} {d : Dim} {rest : List Dim}
    (hsh : make_reduction_shape rdims rlabels op0 ops = some sh)
    (hlr : l < loopRank rlabels op0 ops)
    (hgath : gathered (contribsOf rdims rlabels op0 ops) l = d :: rest) :
    sh.get? l = some d := by
  have hgd := shapeFor_get? hsh (List.get?_range hlr)
  have hls : l < sh.length := by
    rw [mrs_length hsh]
    exact hlr
  have he := List.get?_eq_get hls
  rw [he] at hgd
  unfold gather_dims at hgd
  rw [hgath] at hgd
  rw [he, reconcile_dim_some_cons hgd.symm]

/-- Positional version of a coordinatewise relation. -/
theorem forall₂_get? {R : Int → Dim → Prop} : ∀ {i : List Int} {ds : List Dim},
    List.Forall₂ R i ds → ∀ {q : Nat} {d : Dim}, ds.get? q = some d →
      ∃ x, i.get? q = some x ∧ R x d := by
  intro i ds h
  induction h with
  | nil => intro q d hq; simp at hq
  | @cons x e i2 ds2 hR hF ih =>
    intro q d hq
    cases q with
    | zero =>
      simp only [List.get?_cons_zero, Option.some.injEq] at hq
      exact ⟨x, rfl, hq ▸ hR⟩
    | succ q =>
      simp only [List.get?_cons_succ] at hq ⊢
      exact ih hq

/-- Each coordinate of a shape coordinate list lies in the range of the dim
at its position. -/
theorem allIndices_getD_mem {ds : List Dim} {i : List Int} (h : i ∈ allIndices ds)
    {q : Nat} {d : Dim} (hq : ds.get? q = some d) : i.getD q 0 ∈ dimRange d := by
  obtain ⟨x, hx, hR⟩ := forall₂_get? (mem_allIndices.1 h) hq
  rw [List.getD_eq_getElem?_getD, ← List.get?_eq_getElem?, hx]
  exact hR

/-- C4: for every axis label, the reconciled descriptor driving that loop is
exactly the first contributing descriptor in priority order: the result dim
itself (bounds and stride) whenever the result declares the label, otherwise
the stride-0 reduction of the dim of the first declaring operand in call
order; the bounds of later contributors never replace it. -/
theorem C4_canonical {rdims : List Dim} {rlabels : List Nat} {op0 : EinOp}
    {ops : List EinOp} {sh : List Dim}
    (hlen : rdims.length = rlabels.length)
    (hsh : make_reduction_shape rdims rlabels op0 ops = some sh) (l : Nat) :
    (∀ d : Dim, rdims.get? (index_of l rlabels) = some d → sh.get? l = some d)
      ∧ (l ∉ rlabels →
          ∀ (pre : List EinOp) (op : EinOp) (post : List EinOp),
            op0 :: ops = pre ++ op :: post →
            (∀ o ∈ pre, gather_dim l o.labels (reductions o.dims) = []) →
            op.labels.length = op.dims.length →
            ∀ d : Dim, op.dims.get? (index_of l op.labels) = some d →
              sh.get? l = some (reduction d)) := by
  constructor
  · intro d hd
    have hidx : index_of l rlabels < rdims.length := (List.get?_eq_some.1 hd).1
    have hmem : l ∈ rlabels := mem_of_index_of_lt (by omega)
    have hlr : l < loopRank rlabels op0 ops := lt_loopRank_of_mem_rlabels hmem
    have hgath : gathered (contribsOf rdims rlabels op0 ops) l
        = d :: ((op0 :: ops).flatMap fun o => gather_dim l o.labels (reductions o.dims)) := by
      rw [gathered_contribsOf]
      unfold gather_dim
      rw [hd]
      rfl
    exact mrs_get_head hsh hlr hgath
  · intro hnl pre op post hsplit hpre hwf d hd
    have hmem : l ∈ op.labels := mem_of_get_index_of hwf hd
    have hop : op ∈ op0 :: ops := by
      rw [hsplit]
      exact List.mem_append_right _ (List.mem_cons_self _ _)
    have hlr : l < loopRank rlabels op0 ops := lt_loopRank_of_mem_op hop hmem
    have hres : gather_dim l rlabels rdims = [] := by
      unfold gather_dim
      rw [index_of_of_not_mem hnl, List.get?_eq_none.2 (le_of_eq hlen)]
    have hprenil : pre.flatMap (fun o => gather_dim l o.labels (reductions o.dims)) = [] :=
      List.flatMap_eq_nil_iff.2 hpre
    have hgath : gathered (contribsOf rdims rlabels op0 ops) l
        = reduction d
          :: post.flatMap (fun o => gather_dim l o.labels (reductions o.dims)) := by
      rw [gathered_contribsOf, hres, List.nil_append, hsplit, List.flatMap_append,
        hprenil, List.nil_append, List.flatMap_cons, gather_dim_reductions_some hd]
      rfl
    exact mrs_get_head hsh hlr hgath

/-- Witness for C4_canonical: with the result declaring label 0 of extent 2
and an operand of extent 5, the loop dim is the result dim; with a scalar
result and two operands, the loop dim is the stride-0 reduction of the first
declaring operand dim (stride 7 dropped, bounds kept). -/
theorem C4_witness :
    (((make_reduction_shape [⟨0, 2, 1⟩] [0]
          (arrayOp [⟨0, 5, 1⟩] (fun o => o) [0]) []).getD []).get? 0
        = some ⟨0, 2, 1⟩)
      ∧ (((make_reduction_shape [] [] (arrayOp [⟨0, 3, 7⟩] (fun o => o) [0])
            [arrayOp [⟨0, 3, 1⟩] (fun o => o) [0]]).getD []).get? 0
          = some ⟨0, 3, 0⟩) := by
  refine ⟨?_, ?_⟩
  · exact (@C4_canonical [⟨0, 2, 1⟩] [0] (arrayOp [⟨0, 5, 1⟩] (fun o => o) [0]) []
      [⟨0, 2, 1⟩] rfl rfl 0).1 ⟨0, 2, 1⟩ rfl
  · exact (@C4_canonical [] [] (arrayOp [⟨0, 3, 7⟩] (fun o => o) [0])
      [arrayOp [⟨0, 3, 1⟩] (fun o => o) [0]] [⟨0, 3, 0⟩] rfl rfl 0).2
      (by decide) [] (arrayOp [⟨0, 3, 7⟩] (fun o => o) [0])
      [arrayOp [⟨0, 3, 1⟩] (fun o => o) [0]] rfl (by simp) rfl ⟨0, 3, 7⟩ rfl

end EinsumModel

namespace EinsumModel

/-- C9: when the result declares an axis label, an operand contributing a
non-broadcast dim for the same label with strictly larger extent is accepted
without error provided its index range contains the result range: the
reconcile of that axis succeeds with the result dim as canonical, and the
evaluation loop visits only coordinates of the result range for that axis,
all of which lie inside the operand valid range, so the operand is never
read outside it. -/
theorem C9_contained_operand {rdims : List Dim} {rlabels : List Nat} {op0 : EinOp}
    {ops : List EinOp} {l : Nat} {d0 dop : Dim} {op : EinOp}
    {pre post : List EinOp}
    (hlen : rdims.length = rlabels.length)
    (hd0 : rdims.get? (index_of l rlabels) = some d0)
    (hs0 : d0.stride ≠ 0)
    (hsplit : op0 :: ops = pre ++ op :: post)
    (hdop : op.dims.get? (index_of l op.labels) = some dop)
    (hsop : dop.stride ≠ 0)
    (hext : d0.extent < dop.extent)
    (hrange : dop.isInRange d0)
    (hothers : ∀ o ∈ pre ++ post, gather_dim l o.labels (reductions o.dims) = []) :
    gather_dims (contribsOf rdims rlabels op0 ops) l = some d0
      ∧ ∀ sh, make_reduction_shape rdims rlabels op0 ops = some sh →
          ∀ i ∈ allIndices sh,
            d0.min ≤ i.getD l 0 ∧ i.getD l 0 < d0.min + d0.extent
              ∧ dop.min ≤ i.getD l 0 ∧ i.getD l 0 < dop.min + dop.extent := by
  have hprenil : pre.flatMap (fun o => gather_dim l o.labels (reductions o.dims)) = [] :=
    List.flatMap_eq_nil_iff.2 fun o ho => hothers o (List.mem_append_left _ ho)
  have hpostnil : post.flatMap (fun o => gather_dim l o.labels (reductions o.dims)) = [] :=
    List.flatMap_eq_nil_iff.2 fun o ho => hothers o (List.mem_append_right _ ho)
  have hgath : gathered (contribsOf rdims rlabels op0 ops) l = [d0, reduction dop] := by
    rw [gathered_contribsOf, hsplit, List.flatMap_append, hprenil, List.nil_append,
      List.flatMap_cons, gather_dim_reductions_some hdop, hpostnil]
    unfold gather_dim
    rw [hd0]
    rfl
  have hacc : gather_dims (contribsOf rdims rlabels op0 ops) l = some d0 := by
    unfold gather_dims
    rw [hgath]
    refine reconcile_dim_cons_eq_some.2 ⟨Or.inl hs0, ?_⟩
    intro d hd
    rw [List.mem_singleton.1 hd]
    exact hrange
  refine ⟨hacc, ?_⟩
  intro sh hsh i hi
  have hidx : index_of l rlabels < rdims.length := (List.get?_eq_some.1 hd0).1
  have hmem : l ∈ rlabels := mem_of_index_of_lt (by omega)
  have hlr : l < loopRank rlabels op0 ops := lt_loopRank_of_mem_rlabels hmem
  have hget : sh.get? l = some d0 := mrs_get_head hsh hlr hgath
  have hin := allIndices_getD_mem hi hget
  rw [mem_dimRange] at hin
  rcases hrange with ⟨hr1, hr2⟩
  exact ⟨hin.1, hin.2, by omega, by omega⟩

/-- Witness for C9_contained_operand: result of extent 2 on label 0, operand
of extent 5 containing it; the reconcile keeps the result dim and the loop
coordinate 1 lies in both ranges. -/
theorem C9_witness :
    gather_dims (contribsOf [⟨0, 2, 1⟩] [0]
        (arrayOp [⟨0, 5, 1⟩] (fun o => o) [0]) []) 0 = some ⟨0, 2, 1⟩
      ∧ ((0 : Int) ≤ ([1] : List Int).getD 0 0 ∧ ([1] : List Int).getD 0 0 < 0 + 2
          ∧ (0 : Int) ≤ ([1] : List Int).getD 0 0 ∧ ([1] : List Int).getD 0 0 < 0 + 5) := by
  have h := @C9_contained_operand [⟨0, 2, 1⟩] [0]
    (arrayOp [⟨0, 5, 1⟩] (fun o => o) [0]) [] 0 ⟨0, 2, 1⟩ ⟨0, 5, 1⟩
    (arrayOp [⟨0, 5, 1⟩] (fun o => o) [0]) [] []
    rfl rfl (by decide) rfl rfl (by decide) (by decide) (by decide) (by simp)
  refine ⟨h.1, ?_⟩
  exact h.2 [⟨0, 2, 1⟩] rfl [1] (by decide)

end EinsumModel

namespace EinsumModel

/-- Positionwise content of an inferred result shape. -/
theorem infer_result_shape_get? {cs : List Contrib} : ∀ {ls : List Nat} {sh : List Dim},
    infer_result_shape cs ls = some sh → ∀ {q l : Nat}, ls.get? q = some l →
      ∃ d, gather_dims cs l = some d ∧ sh.get? q = some (without_stride d) := by
  intro ls
  induction ls with
  | nil => intro sh h q l hq; simp at hq
  | cons l0 ls ih =>
    intro sh h q l hq
    unfold infer_result_shape at h
    cases hg : gather_dims cs l0 with
    | none => rw [hg] at h; simp at h
    | some d =>
      cases hrest : infer_result_shape cs ls with
      | none => rw [hg, hrest] at h; simp at h
      | some ds =>
        rw [hg, hrest] at h
        simp only [Option.some.injEq] at h
        subst h
        cases q with
        | zero =>
          simp only [List.get?_cons_zero, Option.some.injEq] at hq
          subst hq
          exact ⟨d, hg, rfl⟩
        | succ q => exact ih hrest (by simpa using hq)

/-- The compact layout keeps every lower bound and extent. -/
theorem compactFrom_get? : ∀ (ds : List Dim) (s : Int) {q : Nat} {d : Dim},
    ds.get? q = some d →
      ∃ e, (compactFrom s ds).get? q = some e ∧ e.min = d.min ∧ e.extent = d.extent := by
  intro ds
  induction ds with
  | nil => intro s q d h; simp at h
  | cons d0 ds ih =>
    intro s q d h
    cases q with
    | zero =>
      simp only [List.get?_cons_zero, Option.some.injEq] at h
      subst h
      exact ⟨_, rfl, rfl, rfl⟩
    | succ q =>
      simp only [List.get?_cons_succ] at h
      exact ih (s * d0.extent) h

/-- C10: in make_einsum shape inference, a requested result axis label that
no array-view operand contributes (for instance a label used only by
callable operands, or by no operand at all) silently reconciles to the dummy
dim of lower bound 0, extent 1 and stride 0 instead of failing, and the
inferred compact result shape carries lower bound 0 and extent 1 on that
axis. -/
theorem C10_missing_label {rlabels : List Nat} {op0 : EinOp} {ops : List EinOp}
    {l q : Nat}
    (hq : rlabels.get? q = some l)
    (hnone : ∀ o ∈ op0 :: ops, gather_dim l o.labels o.dims = []) :
    gather_dims (opContribs op0 ops) l = some ⟨0, 1, 0⟩
      ∧ ∀ sh, make_einsum_shape rlabels op0 ops = some sh →
          ∃ d, sh.get? q = some d ∧ d.min = 0 ∧ d.extent = 1 := by
  have hgath : gathered (opContribs op0 ops) l = [] := by
    unfold gathered opContribs
    rw [List.flatMap_map]
    exact List.flatMap_eq_nil_iff.2 hnone
  have hacc : gather_dims (opContribs op0 ops) l = some ⟨0, 1, 0⟩ := by
    unfold gather_dims
    rw [hgath]
    rfl
  refine ⟨hacc, ?_⟩
  intro sh hsh
  unfold make_einsum_shape at hsh
  rcases Option.map_eq_some'.1 hsh with ⟨sh0, hsh0, hcomp⟩
  obtain ⟨d, hd, hget⟩ := infer_result_shape_get? hsh0 hq
  rw [hacc] at hd
  have hdd : d = ⟨0, 1, 0⟩ := Option.some.inj hd.symm
  subst hdd
  rw [← hcomp]
  obtain ⟨e, he, hm, hx⟩ := compactFrom_get? sh0 1 hget
  exact ⟨e, he, by rw [hm]; rfl, by rw [hx]; rfl⟩

/-- Witness for C10_missing_label: a callable operand declares label 0 but
contributes no dims; make_einsum infers a result axis of bound 0, extent 1. -/
theorem C10_witness :
    gather_dims (opContribs (funOp (fun _ => 1) [0]) []) 0 = some ⟨0, 1, 0⟩
      ∧ ∃ d, ([⟨0, 1, 1⟩] : List Dim).get? 0 = some d ∧ d.min = 0 ∧ d.extent = 1 := by
  have h := @C10_missing_label [0] (funOp (fun _ => 1) [0]) [] 0 0 rfl (by
    intro o ho
    rcases List.mem_cons.1 ho with rfl | h2
    · rfl
    · simp at h2)
  exact ⟨h.1, h.2 [⟨0, 1, 1⟩] rfl⟩

end EinsumModel

namespace EinsumModel

/-- C3: the non-allocating einsum only ever adds into the result and never
zeroes it: for any initial result storage the output cell equals the initial
value plus the value the call produces over a zeroed result.  Hence calling
twice with a re-zeroed result reproduces the same values, and calling twice
without re-zeroing yields exactly double the single-call values. -/
theorem C3_accumulate {rdims : List Dim} {rlabels : List Nat} {op0 : EinOp}
    {ops : List EinOp} {z : Store}
    (hz : einsum op0 ops ⟨rdims, fun _ => 0⟩ rlabels = some z) :
    (∀ init : Store, ∃ g, einsum op0 ops ⟨rdims, init⟩ rlabels = some g
        ∧ ∀ o, g o = init o + z o)
      ∧ (∃ g2, einsum op0 ops ⟨rdims, z⟩ rlabels = some g2 ∧ ∀ o, g2 o = 2 * z o) := by
  cases hsh : make_reduction_shape rdims rlabels op0 ops with
  | none =>
    unfold einsum einsum_impl at hz
    rw [hsh] at hz
    exact absurd hz (by simp)
  | some sh =>
    have hmain : ∀ init : Store, einsum op0 ops ⟨rdims, init⟩ rlabels
        = some ((allIndices sh).foldl (fun st i =>
            Function.update st (offsetOf sh i) (st (offsetOf sh i) + prodOps op0 ops i))
          init) := by
      intro init
      unfold einsum einsum_impl
      rw [hsh]
    have hzval : ∀ o, z o
        = (((allIndices sh).filter fun i => offsetOf sh i = o).map (prodOps op0 ops)).sum := by
      intro o
      have hz2 := hz
      rw [hmain] at hz2
      have := Option.some.inj hz2
      rw [← this, accum_foldl_sh]
      simp
    constructor
    · intro init
      refine ⟨_, hmain init, ?_⟩
      intro o
      rw [accum_foldl_sh, ← hzval o]
    · refine ⟨_, hmain z, ?_⟩
      intro o
      rw [accum_foldl_sh, ← hzval o]
      ring
/-- Witness for C3_accumulate: a scalar summation of the constant 3; the
second call without re-zeroing yields twice the first value. -/
theorem C3_witness :
    ((einsum (scalarOp 3) []
        ⟨[], (einsum (scalarOp 3) [] ⟨[], fun _ => 0⟩ []).getD (fun _ => 0)⟩ []).getD
          (fun _ => 0)) 0
      = 2 * ((einsum (scalarOp 3) [] ⟨[], fun _ => 0⟩ []).getD (fun _ => 0)) 0 := by
  have hz : einsum (scalarOp 3) [] ⟨[], fun _ => 0⟩ []
      = some ((einsum (scalarOp 3) [] ⟨[], fun _ => 0⟩ []).getD (fun _ => 0)) := rfl
  obtain ⟨g2, hg2, hval⟩ := (C3_accumulate hz).2
  rw [hg2]
  simp only [Option.getD_some]
  exact hval 0

end EinsumModel

namespace EinsumModel

/-- Unfolding equation for the operand maximum. -/
theorem opsMax_cons (o : EinOp) (os : List EinOp) :
    opsMax (o :: os) = max (labelMax o.labels) (opsMax os) := rfl

/-- Inserting a scalar operand does not change the operand maximum. -/
theorem opsMax_insert (s : Int) : ∀ (xs ys : List EinOp),
    opsMax (xs ++ scalarOp s :: ys) = opsMax (xs ++ ys) := by
  intro xs ys
  induction xs with
  | nil =>
    rw [List.nil_append, List.nil_append, opsMax_cons]
    have h : labelMax (scalarOp s).labels = 0 := rfl
    rw [h, Nat.zero_max]
  | cons x xs ih =>
    rw [List.cons_append, List.cons_append, opsMax_cons, opsMax_cons, ih]

/-- Inserting a scalar operand does not change the loop rank. -/
theorem loopRank_insert (rlabels : List Nat) (op0 : EinOp) (s : Int)
    (xs ys : List EinOp) :
    loopRank rlabels op0 (xs ++ scalarOp s :: ys) = loopRank rlabels op0 (xs ++ ys) := by
  unfold loopRank
  rw [opsMax_cons, opsMax_cons, opsMax_insert]

/-- Inserting a scalar operand does not change any gathered dim list. -/
theorem gathered_insert (rdims : List Dim) (rlabels : List Nat) (op0 : EinOp)
    (s : Int) (xs ys : List EinOp) (l : Nat) :
    gathered (contribsOf rdims rlabels op0 (xs ++ scalarOp s :: ys)) l
      = gathered (contribsOf rdims rlabels op0 (xs ++ ys)) l := by
  rw [gathered_contribsOf, gathered_contribsOf]
  congr 1
  rw [List.flatMap_cons, List.flatMap_cons, List.flatMap_append, List.flatMap_append,
    List.flatMap_cons]
  have h : gather_dim l (scalarOp s).labels (reductions (scalarOp s).dims) = [] := rfl
  rw [h, List.nil_append]

/-- Pointwise equal gathers build equal shapes. -/
theorem shapeFor_congr {cs1 cs2 : List Contrib}
    (h : ∀ l, gather_dims cs1 l = gather_dims cs2 l) :
    ∀ ls : List Nat, shapeFor cs1 ls = shapeFor cs2 ls := by
  intro ls
  induction ls with
  | nil => rfl
  | cons l ls ih =>
    unfold shapeFor
    rw [h l, ih]

/-- Inserting a scalar operand does not change the reduction shape. -/
theorem mrs_insert (rdims : List Dim) (rlabels : List Nat) (op0 : EinOp)
    (s : Int) (xs ys : List EinOp) :
    make_reduction_shape rdims rlabels op0 (xs ++ scalarOp s :: ys)
      = make_reduction_shape rdims rlabels op0 (xs ++ ys) := by
  unfold make_reduction_shape
  rw [loopRank_insert]
  exact shapeFor_congr (fun l => by
    unfold gather_dims
    rw [gathered_insert]) _

/-- The scalar operand evaluates to its value at every coordinate. -/
theorem ein_at_scalarOp (s : Int) (i : List Int) : ein_at (scalarOp s) i = s := rfl

/-- Inserting a scalar operand multiplies the operand product by the scalar. -/
theorem prodOps_insert (s : Int) (i : List Int) : ∀ (op0 : EinOp) (xs ys : List EinOp),
    prodOps op0 (xs ++ scalarOp s :: ys) i = s * prodOps op0 (xs ++ ys) i := by
  intro op0 xs
  induction xs generalizing op0 with
  | nil =>
    intro ys
    cases ys with
    | nil =>
      show ein_at op0 i * ein_at (scalarOp s) i = s * ein_at op0 i
      rw [ein_at_scalarOp]
      ring
    | cons y ys2 =>
      show ein_at op0 i * (ein_at (scalarOp s) i * prodOps y ys2 i)
        = s * (ein_at op0 i * prodOps y ys2 i)
      rw [ein_at_scalarOp]
      ring
  | cons x xs ih =>
    intro ys
    show ein_at op0 i * prodOps x (xs ++ scalarOp s :: ys) i
      = s * (ein_at op0 i * prodOps x (xs ++ ys) i)
    rw [ih x ys]
    ring

/-- C8: adjoining the scalar operand s (bound with no labels) to a summation
over a pre-zeroed result multiplies every accumulated term, and hence every
result cell, by s: the output is the output of the summation without the
scalar operand, scaled by s.  This is the broadcast-scalar law: replacing an
array operand by the scalar s relates the two operand lists that differ only
by the scalar entry. -/
theorem C8_scalar_scale {rdims : List Dim} {rlabels : List Nat} {op0 : EinOp}
    {xs ys : List EinOp} {s : Int} {g : Store}
    (hg : einsum op0 (xs ++ ys) ⟨rdims, fun _ => 0⟩ rlabels = some g) :
    ∃ g2, einsum op0 (xs ++ scalarOp s :: ys) ⟨rdims, fun _ => 0⟩ rlabels = some g2
      ∧ ∀ o, g2 o = s * g o := by
  cases hsh : make_reduction_shape rdims rlabels op0 (xs ++ ys) with
  | none =>
    unfold einsum einsum_impl at hg
    rw [hsh] at hg
    exact absurd hg (by simp)
  | some sh =>
    have hsh2 : make_reduction_shape rdims rlabels op0 (xs ++ scalarOp s :: ys)
        = some sh := by rw [mrs_insert, hsh]
    refine ⟨_, by unfold einsum einsum_impl; rw [hsh2], ?_⟩
    intro o
    have hgval : g o
        = (((allIndices sh).filter fun i => offsetOf sh i = o).map
            (prodOps op0 (xs ++ ys))).sum := by
      unfold einsum einsum_impl at hg
      rw [hsh] at hg
      rw [← Option.some.inj hg, accum_foldl_sh]
      simp
    rw [accum_foldl_sh, hgval]
    have hmap : (((allIndices sh).filter fun i => offsetOf sh i = o).map
          (prodOps op0 (xs ++ scalarOp s :: ys)))
        = (((allIndices sh).filter fun i => offsetOf sh i = o).map
            fun i => s * prodOps op0 (xs ++ ys) i) :=
      List.map_congr_left fun i _ => prodOps_insert s i op0 xs ys
    rw [hmap, List.sum_map_mul_left]
    simp

/-- Witness for C8_scalar_scale: the sum of the vector (1, 2) with scalar
operand 5 adjoined is 5 times the plain sum. -/
theorem C8_witness :
    ((einsum (arrayOp [⟨0, 2, 1⟩] (fun o => o + 1) [0]) [scalarOp 5]
        ⟨[], fun _ => 0⟩ []).getD (fun _ => 0)) 0
      = 5 * ((einsum (arrayOp [⟨0, 2, 1⟩] (fun o => o + 1) [0]) []
          ⟨[], fun _ => 0⟩ []).getD (fun _ => 0)) 0 := by
  have hg : einsum (arrayOp [⟨0, 2, 1⟩] (fun o => o + 1) [0]) ([] ++ [])
      ⟨[], fun _ => 0⟩ []
      = some ((einsum (arrayOp [⟨0, 2, 1⟩] (fun o => o + 1) [0]) []
          ⟨[], fun _ => 0⟩ []).getD (fun _ => 0)) := rfl
  obtain ⟨g2, hg2, hv⟩ := @C8_scalar_scale [] [] (arrayOp [⟨0, 2, 1⟩] (fun o => o + 1) [0])
    [] [] 5 _ hg
  have he : einsum (arrayOp [⟨0, 2, 1⟩] (fun o => o + 1) [0]) [scalarOp 5]
      ⟨[], fun _ => 0⟩ []
      = einsum (arrayOp [⟨0, 2, 1⟩] (fun o => o + 1) [0]) ([] ++ scalarOp 5 :: [])
        ⟨[], fun _ => 0⟩ [] := rfl
  rw [he, hg2]
  simp only [Option.getD_some]
  exact hv 0

end EinsumModel

namespace EinsumModel

/-- C5: the allocating entry point make_einsum infers the result shape from
the operands (the compact layout of the inferred bounds), allocates a result
whose every element is the initial value 0 before any accumulation, runs the
same summation as the non-allocating entry point on that zeroed result, and
returns the newly owned populated result. -/
theorem C5_make_einsum {rlabels : List Nat} {op0 : EinOp} {ops : List EinOp}
    {sh : List Dim} {data : Store}
    (h : make_einsum rlabels op0 ops = some (sh, data)) :
    make_einsum_shape rlabels op0 ops = some sh
      ∧ Option.map make_compact (infer_result_shape (opContribs op0 ops) rlabels)
          = some sh
      ∧ einsum op0 ops ⟨sh, fun _ => 0⟩ rlabels = some data := by
  unfold make_einsum at h
  cases hs : make_einsum_shape rlabels op0 ops with
  | none => rw [hs] at h; exact absurd h (by simp)
  | some sh1 =>
    rw [hs] at h
    dsimp only at h
    cases he : einsum_impl ⟨sh1, fun _ => 0⟩ rlabels op0 ops with
    | none => rw [he] at h; exact absurd h (by simp)
    | some g =>
      rw [he] at h
      simp only [Option.some.injEq, Prod.mk.injEq] at h
      obtain ⟨h1, h2⟩ := h
      subst h1
      subst h2
      exact ⟨rfl, hs, he⟩

/-- Witness for C5_make_einsum: a one-element operand of value 7 with no
result labels; the inferred shape is empty and the summation fills the
returned scalar result from a zero initial value. -/
theorem C5_witness :
    make_einsum_shape [] (arrayOp [⟨0, 1, 1⟩] (fun _ => 7) [0]) [] = some []
      ∧ einsum (arrayOp [⟨0, 1, 1⟩] (fun _ => 7) [0]) [] ⟨[], fun _ => 0⟩ []
          = some ((make_einsum [] (arrayOp [⟨0, 1, 1⟩] (fun _ => 7) [0]) []).getD
              ([], fun _ => 0)).2 := by
  have h : make_einsum [] (arrayOp [⟨0, 1, 1⟩] (fun _ => 7) [0]) []
      = some (((make_einsum [] (arrayOp [⟨0, 1, 1⟩] (fun _ => 7) [0]) []).getD
            ([], fun _ => 0)).1,
          ((make_einsum [] (arrayOp [⟨0, 1, 1⟩] (fun _ => 7) [0]) []).getD
            ([], fun _ => 0)).2) := rfl
  obtain ⟨h1, h2, h3⟩ := C5_make_einsum h
  exact ⟨h1, h3⟩

end EinsumModel

namespace EinsumModel

/-- Flat map to singletons is a map. -/
theorem list_flatMap_sing {α : Type} (l : List α) :
    (l.flatMap fun x => [[x]]) = l.map fun x => [x] := by
  induction l with
  | nil => rfl
  | cons x l ih => simp only [List.flatMap_cons, ih, List.map_cons, List.singleton_append]

/-- The coordinates of a one-dim shape are the singleton coordinates. -/
theorem allIndices_singleton (d : Dim) :
    allIndices [d] = (dimRange d).map fun x => [x] := by
  show ((dimRange d).flatMap fun x => (allIndices []).map fun i => x :: i) = _
  have h : (fun x : Int => (allIndices []).map fun i => x :: i) = fun x => [[x]] := by
    funext x
    rfl
  rw [h]
  exact list_flatMap_sing _

/-- The range of a broadcast dim at bound 0 with a natural extent. -/
theorem dimRange_zero_nat (k : Nat) (s : Int) :
    dimRange ⟨0, (k : Int), s⟩ = (List.range k).map fun z : Nat => (z : Int) := by
  unfold dimRange
  rw [Int.toNat_ofNat]
  apply List.map_congr_left
  intro z _
  simp

/-- Offset of a rank-2 shape at a coordinate pair. -/
theorem offsetOf_pair (d0 d1 : Dim) (x y : Int) :
    offsetOf [d0, d1] [x, y] = (x - d0.min) * d0.stride + (y - d1.min) * d1.stride := by
  unfold offsetOf
  rw [List.zipWith_cons_cons, List.zipWith_cons_cons]
  show (x - d0.min) * d0.stride + ((y - d1.min) * d1.stride + 0) = _
  ring

/-- A compact rank-2 shape (stride 1 then stride m) addresses distinct cells
at distinct coordinates. -/
theorem offsetInj_compact2 (m n : Nat) :
    OffsetInj [⟨0, (m : Int), 1⟩, ⟨0, (n : Int), (m : Int)⟩] := by
  intro c1 h1 c2 h2 heq
  have hlen1 : c1.length = 2 := length_of_mem_allIndices h1
  have hlen2 : c2.length = 2 := length_of_mem_allIndices h2
  rcases c1 with - | ⟨x1, - | ⟨y1, - | ⟨z1, t1⟩⟩⟩
  · simp at hlen1
  · simp at hlen1
  · rcases c2 with - | ⟨x2, - | ⟨y2, - | ⟨z2, t2⟩⟩⟩
    · simp at hlen2
    · simp at hlen2
    · have hx1 := allIndices_getD_mem h1
        (show ([⟨0, (m : Int), 1⟩, ⟨0, (n : Int), (m : Int)⟩] : List Dim).get? 0
          = some ⟨0, (m : Int), 1⟩ from rfl)
      have hy1 := allIndices_getD_mem h1
        (show ([⟨0, (m : Int), 1⟩, ⟨0, (n : Int), (m : Int)⟩] : List Dim).get? 1
          = some ⟨0, (n : Int), (m : Int)⟩ from rfl)
      have hx2 := allIndices_getD_mem h2
        (show ([⟨0, (m : Int), 1⟩, ⟨0, (n : Int), (m : Int)⟩] : List Dim).get? 0
          = some ⟨0, (m : Int), 1⟩ from rfl)
      have hy2 := allIndices_getD_mem h2
        (show ([⟨0, (m : Int), 1⟩, ⟨0, (n : Int), (m : Int)⟩] : List Dim).get? 1
          = some ⟨0, (n : Int), (m : Int)⟩ from rfl)
      simp only [List.getD_cons_zero, List.getD_cons_succ, mem_dimRange] at hx1 hy1 hx2 hy2
      have heq2 : x1 + y1 * (m : Int) = x2 + y2 * (m : Int) := by
        rw [offsetOf_pair, offsetOf_pair] at heq
        ring_nf at heq ⊢
        exact heq
      have hm : (0 : Int) < m := by
        have h1a := hx1.1
        have h1b := hx1.2
        omega
      have hxx : x1 = x2 := by
        have e1 : x1 % (m : Int) = x1 := by
          refine Int.emod_eq_of_lt hx1.1 ?_
          have := hx1.2
          omega
        have e2 : x2 % (m : Int) = x2 := by
          refine Int.emod_eq_of_lt hx2.1 ?_
          have := hx2.2
          omega
        calc x1 = (x1 + y1 * m) % m := by rw [Int.add_mul_emod_self, e1]
        _ = (x2 + y2 * m) % m := by rw [heq2]
        _ = x2 := by rw [Int.add_mul_emod_self, e2]
      have hyy : y1 = y2 := by
        rw [hxx] at heq2
        have h3 := add_left_cancel heq2
        exact mul_right_cancel₀ (ne_of_gt hm) h3
      rw [hxx, hyy]
    · simp at hlen2
  · simp at hlen1

end EinsumModel

namespace EinsumModel

/-- C1: matrix product.  With A an m-by-k array bound to labels (0, 2), B a
k-by-n array bound to labels (2, 1), and a pre-zeroed compact m-by-n result
bound to labels (0, 1), einsum leaves the result cell at coordinates (i, j)
(flat offset i + j * m) holding the sum over z below k of A(i, z) * B(z, j),
for all i below m and j below n; operand strides are arbitrary. -/
theorem C1_matmul (m k n : Nat) (sA0 sA1 sB0 sB1 : Int) (a b : Store) {data : Store}
    (h : einsum (arrayOp [⟨0, (m : Int), sA0⟩, ⟨0, (k : Int), sA1⟩] a [0, 2])
        [arrayOp [⟨0, (k : Int), sB0⟩, ⟨0, (n : Int), sB1⟩] b [2, 1]]
        ⟨[⟨0, (m : Int), 1⟩, ⟨0, (n : Int), (m : Int)⟩], fun _ => 0⟩ [0, 1]
      = some data) :
    ∀ i j : Int, 0 ≤ i → i < (m : Int) → 0 ≤ j → j < (n : Int) →
      data (i + j * m)
        = ((List.range k).map fun z : Nat =>
            a (i * sA0 + (z : Int) * sA1) * b ((z : Int) * sB0 + j * sB1)).sum := by
  intro i j hi0 him hj0 hjn
  have hmpos : (0 : Int) < m := by omega
  have hg0 : gather_dims (contribsOf [⟨0, (m : Int), 1⟩, ⟨0, (n : Int), (m : Int)⟩]
      [0, 1] (arrayOp [⟨0, (m : Int), sA0⟩, ⟨0, (k : Int), sA1⟩] a [0, 2])
      [arrayOp [⟨0, (k : Int), sB0⟩, ⟨0, (n : Int), sB1⟩] b [2, 1]]) 0
      = some ⟨0, (m : Int), 1⟩ := by
    unfold gather_dims
    have hgath : gathered (contribsOf [⟨0, (m : Int), 1⟩, ⟨0, (n : Int), (m : Int)⟩]
        [0, 1] (arrayOp [⟨0, (m : Int), sA0⟩, ⟨0, (k : Int), sA1⟩] a [0, 2])
        [arrayOp [⟨0, (k : Int), sB0⟩, ⟨0, (n : Int), sB1⟩] b [2, 1]]) 0
        = [⟨0, (m : Int), 1⟩, ⟨0, (m : Int), 0⟩] := rfl
    rw [hgath]
    refine reconcile_dim_cons_eq_some.2 ⟨Or.inl ?_, ?_⟩
    · show (1 : Int) ≠ 0
      decide
    · intro d hd
      rw [List.mem_singleton.1 hd]
      exact ⟨le_refl _, le_refl _⟩
  have hg1 : gather_dims (contribsOf [⟨0, (m : Int), 1⟩, ⟨0, (n : Int), (m : Int)⟩]
      [0, 1] (arrayOp [⟨0, (m : Int), sA0⟩, ⟨0, (k : Int), sA1⟩] a [0, 2])
      [arrayOp [⟨0, (k : Int), sB0⟩, ⟨0, (n : Int), sB1⟩] b [2, 1]]) 1
      = some ⟨0, (n : Int), (m : Int)⟩ := by
    unfold gather_dims
    have hgath : gathered (contribsOf [⟨0, (m : Int), 1⟩, ⟨0, (n : Int), (m : Int)⟩]
        [0, 1] (arrayOp [⟨0, (m : Int), sA0⟩, ⟨0, (k : Int), sA1⟩] a [0, 2])
        [arrayOp [⟨0, (k : Int), sB0⟩, ⟨0, (n : Int), sB1⟩] b [2, 1]]) 1
        = [⟨0, (n : Int), (m : Int)⟩, ⟨0, (n : Int), 0⟩] := rfl
    rw [hgath]
    refine reconcile_dim_cons_eq_some.2 ⟨Or.inl ?_, ?_⟩
    · show (m : Int) ≠ 0
      omega
    · intro d hd
      rw [List.mem_singleton.1 hd]
      exact ⟨le_refl _, le_refl _⟩
  have hg2 : gather_dims (contribsOf [⟨0, (m : Int), 1⟩, ⟨0, (n : Int), (m : Int)⟩]
      [0, 1] (arrayOp [⟨0, (m : Int), sA0⟩, ⟨0, (k : Int), sA1⟩] a [0, 2])
      [arrayOp [⟨0, (k : Int), sB0⟩, ⟨0, (n : Int), sB1⟩] b [2, 1]]) 2
      = some ⟨0, (k : Int), 0⟩ := by
    unfold gather_dims
    have hgath : gathered (contribsOf [⟨0, (m : Int), 1⟩, ⟨0, (n : Int), (m : Int)⟩]
        [0, 1] (arrayOp [⟨0, (m : Int), sA0⟩, ⟨0, (k : Int), sA1⟩] a [0, 2])
        [arrayOp [⟨0, (k : Int), sB0⟩, ⟨0, (n : Int), sB1⟩] b [2, 1]]) 2
        = [⟨0, (k : Int), 0⟩, ⟨0, (k : Int), 0⟩] := rfl
    rw [hgath]
    refine reconcile_dim_cons_eq_some.2 ⟨Or.inr (Or.inr ?_), ?_⟩
    · intro d hd
      exact List.mem_singleton.1 hd
    · intro d hd
      rw [List.mem_singleton.1 hd]
      exact ⟨le_refl _, le_refl _⟩
  have hsh : make_reduction_shape [⟨0, (m : Int), 1⟩, ⟨0, (n : Int), (m : Int)⟩]
      (List.range 2) (arrayOp [⟨0, (m : Int), sA0⟩, ⟨0, (k : Int), sA1⟩] a [0, 2])
      [arrayOp [⟨0, (k : Int), sB0⟩, ⟨0, (n : Int), sB1⟩] b [2, 1]]
      = some [⟨0, (m : Int), 1⟩, ⟨0, (n : Int), (m : Int)⟩, ⟨0, (k : Int), 0⟩] := by
    show shapeFor (contribsOf [⟨0, (m : Int), 1⟩, ⟨0, (n : Int), (m : Int)⟩]
      [0, 1] (arrayOp [⟨0, (m : Int), sA0⟩, ⟨0, (k : Int), sA1⟩] a [0, 2])
      [arrayOp [⟨0, (k : Int), sB0⟩, ⟨0, (n : Int), sB1⟩] b [2, 1]]) [0, 1, 2] = _
    simp only [shapeFor, hg0, hg1, hg2]
  have h2 : einsum_impl ⟨[⟨0, (m : Int), 1⟩, ⟨0, (n : Int), (m : Int)⟩], fun _ => 0⟩
      (List.range 2) (arrayOp [⟨0, (m : Int), sA0⟩, ⟨0, (k : Int), sA1⟩] a [0, 2])
      [arrayOp [⟨0, (k : Int), sB0⟩, ⟨0, (n : Int), sB1⟩] b [2, 1]] = some data := h
  have hc : [i, j] ∈ allIndices [⟨0, (m : Int), 1⟩, ⟨0, (n : Int), (m : Int)⟩] :=
    mem_allIndices.2 (List.Forall₂.cons (mem_dimRange.2 ⟨hi0, by
        show i < (0 : Int) + m
        omega⟩)
      (List.Forall₂.cons (mem_dimRange.2 ⟨hj0, by
        show j < (0 : Int) + n
        omega⟩) List.Forall₂.nil))
  have hcell := einsum_cell rfl hsh h2 (offsetInj_compact2 m n) hc
  have hoff : offsetOf [⟨0, (m : Int), 1⟩, ⟨0, (n : Int), (m : Int)⟩] [i, j]
      = i + j * m := by
    rw [offsetOf_pair]
    show (i - 0) * 1 + (j - 0) * (m : Int) = _
    ring
  rw [hoff] at hcell
  rw [hcell]
  show 0 + ((allIndices [(⟨0, (k : Int), 0⟩ : Dim)]).map fun bb =>
      prodOps (arrayOp [⟨0, (m : Int), sA0⟩, ⟨0, (k : Int), sA1⟩] a [0, 2])
        [arrayOp [⟨0, (k : Int), sB0⟩, ⟨0, (n : Int), sB1⟩] b [2, 1]]
        ([i, j] ++ bb)).sum = _
  rw [zero_add, allIndices_singleton, dimRange_zero_nat, List.map_map, List.map_map]
  apply congrArg List.sum
  apply List.map_congr_left
  intro z hz
  show ein_at (arrayOp [⟨0, (m : Int), sA0⟩, ⟨0, (k : Int), sA1⟩] a [0, 2])
        [i, j, (z : Int)]
      * ein_at (arrayOp [⟨0, (k : Int), sB0⟩, ⟨0, (n : Int), sB1⟩] b [2, 1])
        [i, j, (z : Int)] = _
  have ha : ein_at (arrayOp [⟨0, (m : Int), sA0⟩, ⟨0, (k : Int), sA1⟩] a [0, 2])
      [i, j, (z : Int)] = a (i * sA0 + (z : Int) * sA1) := by
    show a (offsetOf [⟨0, (m : Int), sA0⟩, ⟨0, (k : Int), sA1⟩] [i, (z : Int)]) = _
    rw [offsetOf_pair]
    apply congrArg
    show (i - 0) * sA0 + ((z : Int) - 0) * sA1 = _
    ring
  have hb : ein_at (arrayOp [⟨0, (k : Int), sB0⟩, ⟨0, (n : Int), sB1⟩] b [2, 1])
      [i, j, (z : Int)] = b ((z : Int) * sB0 + j * sB1) := by
    show b (offsetOf [⟨0, (k : Int), sB0⟩, ⟨0, (n : Int), sB1⟩] [(z : Int), j]) = _
    rw [offsetOf_pair]
    apply congrArg
    show ((z : Int) - 0) * sB0 + (j - 0) * sB1 = _
    ring
  rw [ha, hb]

end EinsumModel

namespace EinsumModel

/-- Witness for C1_matmul: the 2-by-2 product at result coordinate (0, 1). -/
theorem C1_witness :
    ((einsum (arrayOp [⟨0, ((2 : Nat) : Int), 1⟩, ⟨0, ((2 : Nat) : Int), 2⟩]
          (fun o => o + 1) [0, 2])
        [arrayOp [⟨0, ((2 : Nat) : Int), 1⟩, ⟨0, ((2 : Nat) : Int), 2⟩]
          (fun o => o + 5) [2, 1]]
        ⟨[⟨0, ((2 : Nat) : Int), 1⟩, ⟨0, ((2 : Nat) : Int), ((2 : Nat) : Int)⟩],
          fun _ => 0⟩ [0, 1]).getD (fun _ => 0)) ((0 : Int) + 1 * 2)
      = ((List.range 2).map fun z : Nat =>
          (fun o : Int => o + 1) ((0 : Int) * 1 + (z : Int) * 2)
            * (fun o : Int => o + 5) ((z : Int) * 1 + (1 : Int) * 2)).sum := by
  have h : einsum (arrayOp [⟨0, ((2 : Nat) : Int), 1⟩, ⟨0, ((2 : Nat) : Int), 2⟩]
        (fun o => o + 1) [0, 2])
      [arrayOp [⟨0, ((2 : Nat) : Int), 1⟩, ⟨0, ((2 : Nat) : Int), 2⟩]
        (fun o => o + 5) [2, 1]]
      ⟨[⟨0, ((2 : Nat) : Int), 1⟩, ⟨0, ((2 : Nat) : Int), ((2 : Nat) : Int)⟩],
        fun _ => 0⟩ [0, 1]
      = some ((einsum (arrayOp [⟨0, ((2 : Nat) : Int), 1⟩, ⟨0, ((2 : Nat) : Int), 2⟩]
          (fun o => o + 1) [0, 2])
        [arrayOp [⟨0, ((2 : Nat) : Int), 1⟩, ⟨0, ((2 : Nat) : Int), 2⟩]
          (fun o => o + 5) [2, 1]]
        ⟨[⟨0, ((2 : Nat) : Int), 1⟩, ⟨0, ((2 : Nat) : Int), ((2 : Nat) : Int)⟩],
          fun _ => 0⟩ [0, 1]).getD (fun _ => 0)) := rfl
  exact C1_matmul 2 2 2 1 2 1 2 (fun o => o + 1) (fun o => o + 5) h 0 1
    (by decide) (by decide) (by decide) (by decide)

end EinsumModel

namespace EinsumModel

/-- Operand evaluation depends only on the coordinates its labels select. -/
theorem ein_at_congr {op : EinOp} {i1 i2 : List Int}
    (h : ∀ q ∈ op.labels, i1.getD q 0 = i2.getD q 0) : ein_at op i1 = ein_at op i2 := by
  unfold ein_at
  exact congrArg op.acc (List.map_congr_left h)

/-- The operand product depends only on coordinates some operand selects. -/
theorem prodOps_congr : ∀ (op0 : EinOp) (ops : List EinOp) {i1 i2 : List Int},
    (∀ op ∈ op0 :: ops, ∀ q ∈ op.labels, i1.getD q 0 = i2.getD q 0) →
    prodOps op0 ops i1 = prodOps op0 ops i2 := by
  intro op0 ops
  induction ops generalizing op0 with
  | nil =>
    intro i1 i2 h
    exact ein_at_congr (h op0 (List.mem_cons_self _ _))
  | cons o os ih =>
    intro i1 i2 h
    show ein_at op0 i1 * prodOps o os i1 = ein_at op0 i2 * prodOps o os i2
    rw [ein_at_congr (h op0 (List.mem_cons_self _ _)),
      ih o (fun op hop => h op (List.mem_cons_of_mem _ hop))]

/-- C7: when the identity-labeled result declares an axis label l that no
operand declares, the computed result over a pre-zeroed storage is identical
across all coordinates of that axis: two result coordinates differing only
at position l address cells holding the same value (the same reduction is
recomputed for each coordinate of the skipped axis). -/
theorem C7_skipped_label {r : Nat} {rdims : List Dim} {l : Nat} {op0 : EinOp}
    {ops : List EinOp} {data : Store}
    (hlen : rdims.length = r) (hl : l < r)
    (hnop : ∀ op ∈ op0 :: ops, l ∉ op.labels)
    (hinj : OffsetInj rdims)
    (h : einsum op0 ops ⟨rdims, fun _ => 0⟩ (List.range r) = some data) :
    ∀ c1 ∈ allIndices rdims, ∀ c2 ∈ allIndices rdims,
      (∀ q : Nat, q ≠ l → c1.getD q 0 = c2.getD q 0) →
      data (offsetOf rdims c1) = data (offsetOf rdims c2) := by
  intro c1 hc1 c2 hc2 hagree
  cases hsh : make_reduction_shape rdims (List.range r) op0 ops with
  | none =>
    unfold einsum einsum_impl at h
    rw [hsh] at h
    exact absurd h (by simp)
  | some sh =>
    have e1 := einsum_cell hlen hsh h hinj hc1
    have e2 := einsum_cell hlen hsh h hinj hc2
    rw [e1, e2]
    have hl1 : c1.length = r := by rw [length_of_mem_allIndices hc1, hlen]
    have hl2 : c2.length = r := by rw [length_of_mem_allIndices hc2, hlen]
    have hsum : ((allIndices (sh.drop r)).map fun bb => prodOps op0 ops (c1 ++ bb))
        = (allIndices (sh.drop r)).map fun bb => prodOps op0 ops (c2 ++ bb) := by
      apply List.map_congr_left
      intro bb hbb
      apply prodOps_congr
      intro op hop q hq
      have hql : q ≠ l := fun he => hnop op hop (he ▸ hq)
      by_cases hqr : q < r
      · rw [List.getD_append _ _ _ q (by omega), List.getD_append _ _ _ q (by omega)]
        exact hagree q hql
      · rw [List.getD_append_right _ _ _ q (by omega),
          List.getD_append_right _ _ _ q (by omega), hl1, hl2]
    rw [hsum]

/-- Witness for C7_skipped_label: a scalar operand 5 summed into a 1-axis
result whose label 0 no operand declares; the two result cells coincide. -/
theorem C7_witness :
    ((einsum (scalarOp 5) [] ⟨[⟨0, 2, 1⟩], fun _ => 0⟩ [0]).getD (fun _ => 0))
        (offsetOf [⟨0, 2, 1⟩] [0])
      = ((einsum (scalarOp 5) [] ⟨[⟨0, 2, 1⟩], fun _ => 0⟩ [0]).getD (fun _ => 0))
        (offsetOf [⟨0, 2, 1⟩] [1]) := by
  have h : einsum (scalarOp 5) [] ⟨[⟨0, 2, 1⟩], fun _ => 0⟩ (List.range 1)
      = some ((einsum (scalarOp 5) [] ⟨[⟨0, 2, 1⟩], fun _ => 0⟩ [0]).getD
          (fun _ => 0)) := rfl
  refine @C7_skipped_label 1 [⟨0, 2, 1⟩] 0 (scalarOp 5) []
    ((einsum (scalarOp 5) [] ⟨[⟨0, 2, 1⟩], fun _ => 0⟩ [0]).getD (fun _ => 0))
    rfl (by decide) ?_ (by decide) h [0] (by decide) [1] (by decide) ?_
  · intro op hop
    rw [List.mem_singleton.1 hop]
    decide
  · intro q hq
    cases q with
    | zero => exact absurd rfl hq
    | succ qq => rfl

end EinsumModel
